import Mathlib

/-!
Verification development for the studypdf RAG pipeline.

Strings manipulated by the JavaScript source are modelled as `List Char`
(`JsStr`); all functions are translated directly from the repository's
source files (`src/lib/rag/chunker.ts`, `src/lib/rag/embeddings.ts`,
`src/lib/rag/search.ts` + the `match_content_chunks` SQL function,
`src/lib/claude/client.ts`, `src/lib/inngest/functions.ts`).
External collaborators (Unicode NFC normalization, the embedding provider,
the cosine-distance operator of the vector store, `JSON.parse`) are either
passed in as explicit function parameters or modelled separately, as noted
at each definition.
-/

namespace StudyPdf

/-- JavaScript strings, modelled as lists of characters (code points). -/
abbrev JsStr := List Char

/-- The whitespace class used by JavaScript (`\s` in regexes, `String.trim`):
ASCII whitespace, NBSP, BOM and the Unicode line separators. -/
def isJsWs (c : Char) : Bool :=
  c = ' ' || c = '\t' || c = '\n' || c = '\u000B' || c = '\u000C' ||
  c = '\u000D' || c = '\u00A0' || c = '\uFEFF' || c = '\u2028' || c = '\u2029'

/-- JavaScript `String.prototype.trim`. -/
def jsTrim (s : JsStr) : JsStr :=
  ((s.dropWhile isJsWs).reverse.dropWhile isJsWs).reverse

/-- Decimal digit test (`\d` in JavaScript regexes). -/
def isDigitCh (c : Char) : Bool := '0' ≤ c && c ≤ '9'

/-- Value of a (nonempty) digit string, as computed by `parseInt`. -/
def digitsToNat (ds : JsStr) : Nat :=
  ds.foldl (fun acc c => acc * 10 + (c.toNat - '0'.toNat)) 0

/-! ## Sanitizer (`sanitizeText`, src/lib/rag/chunker.ts lines 41-49) -/

/-- The null byte removed by the first `.replace(/\u0000/g, "")`. -/
def isNullByte (c : Char) : Bool := c = '\u0000'

/-- The control characters removed by the second
`.replace(/[\u0001-\u0008\u000B\u000C\u000E-\u001F]/g, "")` —
C0 controls excluding tab (U+0009), newline (U+000A) and
carriage return (U+000D). -/
def isRemovedControl (c : Char) : Bool :=
  ('\u0001' ≤ c && c ≤ '\u0008') || c = '\u000B' || c = '\u000C' ||
  ('\u000E' ≤ c && c ≤ '\u001F')

/-- `sanitizeText`: remove null bytes, remove the control-character class,
then apply Unicode NFC normalization.  NFC lives in the JavaScript runtime,
not in the repository, so it is taken as an explicit parameter `nfc`. -/
def sanitizeText (nfc : JsStr → JsStr) (text : JsStr) : JsStr :=
  nfc ((text.filter (fun c => !isNullByte c)).filter (fun c => !isRemovedControl c))

/-- Modelled from the spec: "canonical Unicode normalization (NFC)" performed
by `String.prototype.normalize("NFC")`, an external Unicode-runtime
collaborator.  It is modelled as the identity function; this is exact on all
strings evaluated concretely in this file, which consist of ASCII code points
only (NFC fixes every ASCII string pointwise). -/
def nfcModel : JsStr → JsStr := id

/-- A control character in the sense of the claim: a C0 control (U+0000–U+001F)
or DELETE (U+007F). -/
def isControlChar (c : Char) : Bool := c < ' ' || c = '\u007F'

/-! ## Header splitting (`splitByHeaders`, src/lib/rag/chunker.ts lines 90-139)

The JavaScript code repeatedly `exec`s the multiline regex
`/^(#{1,2})\s+(?:Chapter\s+)?(\d+)?[:\s]*(.+)$/gm` over the text.  The
functions below implement exactly that pattern (with JavaScript's greedy
backtracking order) as a character-list scanner. -/

/-- JavaScript line terminators (the characters `.` does not match and the
positions where the multiline anchors `^`/`$` fire). -/
def isLineTerm (c : Char) : Bool :=
  c = '\n' || c = '\u000D' || c = ' ' || c = ' '

/-- The run of characters matched by a greedy `(.+)` from here: everything up
to the next line terminator or the end of input. -/
def lineRun (cs : JsStr) : JsStr := cs.takeWhile (fun c => !isLineTerm c)

/-- Match `[:\s]*(.+)$` at the head of `cs`, greedily, returning the number of
characters consumed and the text captured by `(.+)`. -/
def tailMatch : JsStr → Option (Nat × JsStr)
  | [] => none
  | c :: rest =>
    if c = ':' || isJsWs c then
      match tailMatch rest with
      | some (n, t) => some (n + 1, t)
      | none =>
        let run := lineRun (c :: rest)
        if run.isEmpty then none else some (run.length, run)
    else
      let run := lineRun (c :: rest)
      if run.isEmpty then none else some (run.length, run)

/-- Match `\d+[:\s]*(.+)$` at the head, greedily, accumulating the digits
captured so far in `acc`.  Returns (consumed, captured digits, title). -/
def digitsSome (acc : JsStr) : JsStr → Option (Nat × Option JsStr × JsStr)
  | [] => none
  | c :: rest =>
    if isDigitCh c then
      match digitsSome (acc ++ [c]) rest with
      | some (n, d, t) => some (n + 1, d, t)
      | none =>
        match tailMatch rest with
        | some (n, t) => some (1 + n, some (acc ++ [c]), t)
        | none => none
    else none

/-- Match `(\d+)?[:\s]*(.+)$` at the head (the optional digit group is tried
first, as the regex engine does). -/
def midTail (cs : JsStr) : Option (Nat × Option JsStr × JsStr) :=
  match digitsSome [] cs with
  | some r => some r
  | none => (tailMatch cs).map (fun p => (p.1, none, p.2))

/-- Match `\s+` (one or more, greedy with backtracking) followed by the
continuation `k`. -/
def wsPlus (k : JsStr → Option (Nat × Option JsStr × JsStr)) :
    JsStr → Option (Nat × Option JsStr × JsStr)
  | [] => none
  | c :: rest =>
    if isJsWs c then
      match wsPlus k rest with
      | some (n, d, t) => some (n + 1, d, t)
      | none => (k rest).map (fun r => (r.1 + 1, r.2.1, r.2.2))
    else none

/-- The literal `Chapter` of the optional group. -/
def chapterLit : JsStr := "Chapter".toList

/-- Match `(?:Chapter\s+)?(\d+)?[:\s]*(.+)$` at the head (the optional
`Chapter` branch is tried first). -/
def chapterOpt (cs : JsStr) : Option (Nat × Option JsStr × JsStr) :=
  match (if chapterLit.isPrefixOf cs then
            (wsPlus midTail (cs.drop 7)).map (fun r => (r.1 + 7, r.2.1, r.2.2))
          else none) with
  | some r => some r
  | none => midTail cs

/-- Match everything after the hashes: `\s+(?:Chapter\s+)?(\d+)?[:\s]*(.+)$`. -/
def afterHash : JsStr → Option (Nat × Option JsStr × JsStr) := wsPlus chapterOpt

/-- Match the full header pattern `(#{1,2})\s+(?:Chapter\s+)?(\d+)?[:\s]*(.+)$`
at the head of `cs` (which the caller has checked to be at a line start).
`#{1,2}` is greedy: two hashes are tried before one. -/
def headerAt (cs : JsStr) : Option (Nat × Option JsStr × JsStr) :=
  match cs with
  | '#' :: '#' :: rest =>
    match (afterHash rest).map (fun r => (r.1 + 2, r.2.1, r.2.2)) with
    | some r => some r
    | none => (afterHash ('#' :: rest)).map (fun r => (r.1 + 1, r.2.1, r.2.2))
  | '#' :: rest => (afterHash rest).map (fun r => (r.1 + 1, r.2.1, r.2.2))
  | _ => none

/-- One `exec` result of the header regex: position, total length of
`match[0]`, the optional digit capture `match[2]`, and the title capture
`match[3]`. -/
structure HeaderMatch where
  idx : Nat
  len : Nat
  digits : Option JsStr
  title : JsStr
deriving DecidableEq, Repr

/-- The `while ((match = headerRegex.exec(text)) !== null)` scan: try the
pattern at every line-start position, left to right, resuming after each
match.  A match never ends in a line terminator (its title is matched by
`(.+)`), so the position after a match is never a line start. -/
def findMatchesAux : Nat → JsStr → Nat → Bool → List HeaderMatch
  | 0, _, _, _ => []
  | _ + 1, [], _, _ => []
  | fuel + 1, c :: rest, pos, lineStart =>
    if lineStart then
      match headerAt (c :: rest) with
      | some (len, d, t) =>
        ⟨pos, len, d, t⟩ :: findMatchesAux fuel (rest.drop (len - 1)) (pos + len) false
      | none => findMatchesAux fuel rest (pos + 1) (isLineTerm c)
    else
      findMatchesAux fuel rest (pos + 1) (isLineTerm c)

/-- All matches of the header regex over the text.  Every recursive step of
the scan consumes at least one character, so `length + 1` units of fuel make
the fuel bound unreachable. -/
def findHeaderMatches (text : JsStr) : List HeaderMatch :=
  findMatchesAux (text.length + 1) text 0 true

/-- A labeled section produced by `splitByHeaders`. -/
structure Sect where
  title : Option JsStr
  chapterNumber : Option Nat
  content : JsStr
deriving DecidableEq, Repr

/-- The body of the `splitByHeaders` loop over the regex matches, carrying
`lastIndex`, `lastTitle` and `lastChapterNumber`. -/
def sbhLoop (text : JsStr) : List HeaderMatch → Nat → Option JsStr → Option Nat → List Sect
  | [], lastIndex, lastTitle, lastChap =>
    let remaining := jsTrim (text.drop lastIndex)
    if remaining.isEmpty then [] else [⟨lastTitle, lastChap, remaining⟩]
  | m :: ms, lastIndex, lastTitle, lastChap =>
    let pre :=
      if lastIndex < m.idx then
        let content := jsTrim ((text.drop lastIndex).take (m.idx - lastIndex))
        if content.isEmpty then [] else [⟨lastTitle, lastChap, content⟩]
      else []
    pre ++ sbhLoop text ms (m.idx + m.len) (some (jsTrim m.title)) (m.digits.map digitsToNat)

/-- `splitByHeaders`: split the text into sections at markdown header lines;
if no section was produced, the whole text is one untitled section. -/
def splitByHeaders (text : JsStr) : List Sect :=
  let sections := sbhLoop text (findHeaderMatches text) 0 none none
  if sections.isEmpty then [⟨none, none, text⟩] else sections

/-! ## Paragraph and sentence splitting (src/lib/rag/chunker.ts) -/

/-- Auxiliary: `dropWhile` never lengthens a list (used for termination). -/
theorem dropWhile_len_le (p : Char → Bool) (l : List Char) :
    (l.dropWhile p).length ≤ l.length := by
  induction l with
  | nil => simp [List.dropWhile]
  | cons a l ih =>
    simp only [List.dropWhile]
    split
    · exact Nat.le_succ_of_le ih
    · simp

/-- Scanner for `text.split(/\n\n+/)`: a separator is a maximal run of two or
more newlines; the pieces between separators are returned (empty pieces
included, as `String.split` does). -/
def spGo : Nat → JsStr → JsStr → List JsStr
  | 0, acc, _ => [acc.reverse]
  | _ + 1, acc, [] => [acc.reverse]
  | fuel + 1, acc, '\n' :: '\n' :: rest =>
    acc.reverse :: spGo fuel [] (rest.dropWhile (fun c => c = '\n'))
  | fuel + 1, acc, c :: rest => spGo fuel (c :: acc) rest

/-- `text.split(/\n\n+/)`.  Each recursive step of `spGo` consumes at least
one character, so `length + 1` units of fuel suffice. -/
def splitParagraphs (text : JsStr) : List JsStr := spGo (text.length + 1) [] text

/-- Sentence terminators (`[.!?]` in the split regex). -/
def isSentEnd (c : Char) : Bool := c = '.' || c = '!' || c = '?'

/-- `[A-Z]` in the split regex. -/
def isUpper (c : Char) : Bool := 'A' ≤ c && c ≤ 'Z'

/-- Scanner for `text.split(/(?<=[.!?])\s+(?=[A-Z])/)`: a separator is a
maximal whitespace run preceded by `.`/`!`/`?` and followed by a capital
letter.  `prev` is the character before the scan position. -/
def ssGo : Nat → Option Char → JsStr → JsStr → List JsStr
  | 0, _, acc, _ => [acc.reverse]
  | _ + 1, _, acc, [] => [acc.reverse]
  | fuel + 1, prev, acc, c :: rest =>
    if (match prev with | some p => isSentEnd p | none => false) && isJsWs c then
      let run := (c :: rest).takeWhile isJsWs
      let after := rest.drop (run.length - 1)
      match after with
      | a :: _ =>
        if isUpper a then acc.reverse :: ssGo fuel none [] after
        else ssGo fuel (some c) (c :: acc) rest
      | [] => ssGo fuel (some c) (c :: acc) rest
    else ssGo fuel (some c) (c :: acc) rest

/-- `splitIntoSentences`: regex split followed by
`.filter(s => s.trim().length > 0)`.  Each recursive step of `ssGo` consumes
at least one character, so `length + 1` units of fuel suffice. -/
def splitIntoSentences (text : JsStr) : List JsStr :=
  (ssGo (text.length + 1) none [] text).filter (fun s => !(jsTrim s).isEmpty)

/-! ## Chunking (`chunkSection` / `chunkText`, src/lib/rag/chunker.ts) -/

/-- A chunk as produced by the chunker; the `metadata` object of the source is
flattened into the fields `startChar`, `endChar`, `pageNumber`,
`chapterNumber`, `sectionTitle`. -/
structure TextChunk where
  content : JsStr
  index : Nat
  startChar : Int
  endChar : Int
  pageNumber : Option Nat
  chapterNumber : Option Nat
  sectionTitle : Option JsStr
deriving DecidableEq, Repr

/-- `ChunkOptions`: all fields optional. -/
structure ChunkOptions where
  maxChunkSize : Option Nat
  minChunkSize : Option Nat
  overlapSize : Option Nat
  preservePageBoundaries : Option Bool
deriving DecidableEq, Repr

/-- The options object after `{ ...DEFAULT_OPTIONS, ...options }`. -/
structure ResolvedChunkOptions where
  maxChunkSize : Nat
  minChunkSize : Nat
  overlapSize : Nat
  preservePageBoundaries : Bool
deriving DecidableEq, Repr

/-- `DEFAULT_OPTIONS` of src/lib/rag/chunker.ts lines 30-35. -/
def DEFAULT_OPTIONS : ResolvedChunkOptions := ⟨1800, 200, 300, true⟩

/-- `{ ...DEFAULT_OPTIONS, ...options }`. -/
def mergeOptions (o : ChunkOptions) : ResolvedChunkOptions :=
  ⟨o.maxChunkSize.getD DEFAULT_OPTIONS.maxChunkSize,
   o.minChunkSize.getD DEFAULT_OPTIONS.minChunkSize,
   o.overlapSize.getD DEFAULT_OPTIONS.overlapSize,
   o.preservePageBoundaries.getD DEFAULT_OPTIONS.preservePageBoundaries⟩

/-- The empty options object `{}`. -/
def emptyOptions : ChunkOptions := ⟨none, none, none, none⟩

/-- The mutable state of the `chunkSection` loop: the chunks pushed so far,
`currentChunk`, `chunkStartChar` and `currentCharOffset`. -/
structure CState where
  chunks : List TextChunk
  cur : JsStr
  curStart : Int
  curOff : Int
deriving DecidableEq, Repr

/-- Close the current chunk and seed the next buffer with the trailing
`overlapSize` characters (`chunks.push({...}); overlapStart = Math.max(0,
currentChunk.length - opts.overlapSize); currentChunk =
currentChunk.slice(overlapStart); chunkStartChar = currentCharOffset -
currentChunk.length`).  `Math.max(0, a - b)` is natural subtraction. -/
def pushReset (opts : ResolvedChunkOptions) (startIndex : Nat) (st : CState) : CState :=
  let newChunk : TextChunk :=
    ⟨jsTrim st.cur, startIndex + st.chunks.length, st.curStart, st.curOff, none, none, none⟩
  let overlapStart : Nat := st.cur.length - opts.overlapSize
  let cur' := st.cur.drop overlapStart
  ⟨st.chunks ++ [newChunk], cur', st.curOff - (cur'.length : Int), st.curOff⟩

/-- One iteration of the inner sentence loop of `chunkSection`. -/
def sentStep (opts : ResolvedChunkOptions) (startIndex : Nat) (st : CState) (s : JsStr) :
    CState :=
  let st1 :=
    if opts.maxChunkSize < st.cur.length + s.length ∧ 0 < st.cur.length then
      pushReset opts startIndex st
    else st
  { st1 with cur := st1.cur ++ s ++ [' '], curOff := st1.curOff + (s.length : Int) + 1 }

/-- One iteration of the paragraph loop of `chunkSection`. -/
def paraStep (opts : ResolvedChunkOptions) (startIndex : Nat) (st : CState) (p : JsStr) :
    CState :=
  let pwb := p ++ ['\n', '\n']
  let st1 :=
    if opts.maxChunkSize < st.cur.length + pwb.length ∧ 0 < st.cur.length then
      pushReset opts startIndex st
    else st
  if opts.maxChunkSize < pwb.length then
    (splitIntoSentences p).foldl (sentStep opts startIndex) st1
  else
    { st1 with cur := st1.cur ++ pwb, curOff := st1.curOff + (pwb.length : Int) }

/-- Replace the last element of a list of chunks. -/
def modifyLast (l : List TextChunk) (f : TextChunk → TextChunk) : List TextChunk :=
  l.dropLast ++ (l.getLast?.map f).toList

/-- The "don't forget the last chunk" epilogue of `chunkSection` (lines
220-244): push the trailing buffer if it reaches `minChunkSize`, otherwise
merge it into the previous chunk, or emit it alone if it is the only one. -/
def finalizeChunks (opts : ResolvedChunkOptions) (startIndex : Nat) (st : CState) :
    List TextChunk :=
  if opts.minChunkSize ≤ (jsTrim st.cur).length then
    st.chunks ++
      [⟨jsTrim st.cur, startIndex + st.chunks.length, st.curStart, st.curOff, none, none, none⟩]
  else if st.chunks ≠ [] then
    modifyLast st.chunks (fun c =>
      { c with content := c.content ++ '\n' :: '\n' :: jsTrim st.cur, endChar := st.curOff })
  else
    [⟨jsTrim st.cur, startIndex, st.curStart, st.curOff, none, none, none⟩]

/-- `chunkSection` (src/lib/rag/chunker.ts lines 144-247). -/
def chunkSection (text : JsStr) (opts : ResolvedChunkOptions) (startIndex : Nat)
    (globalCharOffset : Int) : List TextChunk :=
  if text.length ≤ opts.maxChunkSize then
    [⟨text, startIndex, globalCharOffset, globalCharOffset + (text.length : Int),
      none, none, none⟩]
  else
    finalizeChunks opts startIndex
      ((splitParagraphs text).foldl (paraStep opts startIndex)
        ⟨[], [], globalCharOffset, globalCharOffset⟩)

/-- Attach the section's title and chapter number to a chunk (the inner loop
of `chunkText`). -/
def setSectionMeta (s : Sect) (c : TextChunk) : TextChunk :=
  { c with sectionTitle := s.title, chapterNumber := s.chapterNumber }

/-- The section loop of `chunkText`, carrying `chunkIndex` and
`globalCharOffset`. -/
def chunkTextAux (opts : ResolvedChunkOptions) : List Sect → Nat → Int → List TextChunk
  | [], _, _ => []
  | s :: rest, chunkIndex, globalCharOffset =>
    let scs := (chunkSection s.content opts chunkIndex globalCharOffset).map (setSectionMeta s)
    scs ++ chunkTextAux opts rest (chunkIndex + scs.length)
      (globalCharOffset + (s.content.length : Int))

/-- `chunkText` (src/lib/rag/chunker.ts lines 54-85): sanitize, split into
sections, chunk each section.  `nfc` is the external NFC normalizer used by
`sanitizeText`. -/
def chunkText (nfc : JsStr → JsStr) (text : JsStr) (options : ChunkOptions) :
    List TextChunk :=
  chunkTextAux (mergeOptions options) (splitByHeaders (sanitizeText nfc text)) 0 0

/-! ## Embedding batcher (`generateEmbeddings`, src/lib/rag/embeddings.ts) -/

/-- `MAX_BATCH_SIZE` (OpenAI limit). -/
def MAX_BATCH_SIZE : Nat := 100

/-- `MAX_TOKENS_PER_REQUEST` (model limit). -/
def MAX_TOKENS_PER_REQUEST : Nat := 8191

/-- One record of the result of `generateEmbeddings`.  The embedding vectors
produced by the provider are opaque here, hence the type parameter `E`. -/
structure EmbeddingResult (E : Type) where
  text : JsStr
  embedding : E
  index : Nat
deriving DecidableEq, Repr

/-- `truncateText` (src/lib/rag/embeddings.ts lines 72-78), called at its
default `maxTokens = MAX_TOKENS_PER_REQUEST`: truncate to 4 characters per
token. -/
def truncateText (text : JsStr) : JsStr :=
  let maxChars := MAX_TOKENS_PER_REQUEST * 4
  if text.length ≤ maxChars then text else text.take maxChars

/-- The batch loop of `generateEmbeddings`: `i` is the absolute index of the
first element of the remaining list.  The provider (OpenAI `embeddings.create`)
is passed in as a function from the (truncated) batch to the list of returned
embeddings; the inner loop runs over the response (`j <
response.data.length`), reading `batch[j]` (modelled with `getD`, the
out-of-range default standing for `undefined`). -/
def genEmbLoop (E : Type) (provider : List JsStr → List E) :
    Nat → List JsStr → Nat → List (EmbeddingResult E)
  | 0, _, _ => []
  | _ + 1, [], _ => []
  | fuel + 1, t :: ts, i =>
    let batch := (t :: ts).take MAX_BATCH_SIZE
    let truncatedBatch := batch.map truncateText
    let response := provider truncatedBatch
    let results := response.enum.map (fun je => ⟨batch.getD je.1 [], je.2, i + je.1⟩)
    results ++ genEmbLoop E provider fuel ((t :: ts).drop MAX_BATCH_SIZE) (i + MAX_BATCH_SIZE)

/-- `generateEmbeddings` (src/lib/rag/embeddings.ts lines 39-66).  Each
round of the batch loop consumes at least one input, so `length + 1` units
of fuel suffice. -/
def generateEmbeddings (E : Type) (provider : List JsStr → List E) (texts : List JsStr) :
    List (EmbeddingResult E) :=
  genEmbLoop E provider (texts.length + 1) texts 0

/-- The loop computing the batches handed to the provider: each is the
truncation-mapped slice of at most `MAX_BATCH_SIZE` inputs. -/
def sentBatchesAux : Nat → List JsStr → List (List JsStr)
  | 0, _ => []
  | _ + 1, [] => []
  | fuel + 1, t :: ts => ((t :: ts).take MAX_BATCH_SIZE).map truncateText ::
      sentBatchesAux fuel ((t :: ts).drop MAX_BATCH_SIZE)

/-- The batches actually handed to the provider, in call order. -/
def sentBatches (texts : List JsStr) : List (List JsStr) :=
  sentBatchesAux (texts.length + 1) texts

/-! ## Cosine similarity (`cosineSimilarity`, src/lib/rag/embeddings.ts
lines 83-99).  The JavaScript floating-point numbers are idealized as real
numbers. -/

/-- The loop accumulating `dotProduct` (and, applied to `a a` / `b b`,
`normA` / `normB`): sum of pairwise products over `i < a.length`. -/
def dotProduct (a b : List ℝ) : ℝ :=
  (a.zip b).foldl (fun acc p => acc + p.1 * p.2) 0

/-- `cosineSimilarity`: throws when the dimensions differ, otherwise returns
`dotProduct / (Math.sqrt(normA) * Math.sqrt(normB))`. -/
noncomputable def cosineSimilarity (a b : List ℝ) : Except JsStr ℝ :=
  if a.length ≠ b.length then
    .error ("Embeddings must have the same dimensions".toList)
  else
    .ok (dotProduct a b / (Real.sqrt (dotProduct a a) * Real.sqrt (dotProduct b b)))

/-! ## Similarity search (`match_content_chunks` SQL function and
`searchContent`, src/lib/rag/search.ts).  The pgvector cosine-distance
operator `<=>` is the vector store's: it is passed in as `dist`; distances
and similarities are modelled as rationals, row ids as naturals. -/

/-- A row of `content_chunks` as returned by the SQL function (the columns
the query logic touches; `metadata`/`created_at` are carried opaquely). -/
structure ContentChunkRow (E : Type) where
  id : Nat
  textbook_id : Nat
  chapter_id : Nat
  content : JsStr
  chunk_index : Int
  embedding : Option E
deriving DecidableEq, Repr

/-- Insert into a list sorted by ascending key (the `ORDER BY` comparator).
The key type `K` models the numeric type of distances (floats in the store);
any linearly ordered type serves. -/
def insertByKey (α K : Type) [LinearOrder K] (key : α → K) (x : α) : List α → List α
  | [] => [x]
  | y :: ys => if key x ≤ key y then x :: y :: ys else y :: insertByKey α K key x ys

/-- Insertion sort by ascending key, modelling SQL `ORDER BY key ASC`. -/
def sortByKey (α K : Type) [LinearOrder K] (key : α → K) : List α → List α
  | [] => []
  | x :: xs => insertByKey α K key x (sortByKey α K key xs)

/-- The `match_content_chunks` SQL function: keep rows with a non-null
embedding that pass the optional textbook/chapter filters and whose
similarity `1 - dist` exceeds `match_threshold` strictly; order by ascending
distance; limit to `match_count`; return each row with its similarity. -/
def matchContentChunks (E K : Type) [LinearOrderedRing K] (dist : E → E → K)
    (rows : List (ContentChunkRow E)) (queryEmbedding : E) (matchThreshold : K)
    (matchCount : Nat) (filterTextbookId filterChapterId : Option Nat) :
    List (ContentChunkRow E × K) :=
  let eligible := rows.filterMap (fun r =>
    match r.embedding with
    | none => none
    | some e =>
      let d := dist e queryEmbedding
      if (match filterTextbookId with | none => true | some t => r.textbook_id == t) &&
         (match filterChapterId with | none => true | some ch => r.chapter_id == ch) &&
         decide (matchThreshold < 1 - d) then
        some (r, d)
      else none)
  ((sortByKey (ContentChunkRow E × K) K (fun p => p.2) eligible).take matchCount).map
    (fun p => (p.1, 1 - p.2))

/-- `SearchOptions` of src/lib/rag/search.ts. -/
structure SearchOptions where
  textbookId : Option Nat
  chapterId : Option Nat
  limit : Option Nat
  threshold : Option ℚ
deriving DecidableEq, Repr

/-- `SearchResult` of src/lib/rag/search.ts. -/
structure SearchResult (E : Type) where
  chunk : ContentChunkRow E
  similarity : ℚ
deriving DecidableEq, Repr

/-- `searchContent`: apply the option defaults (`limit = 5`,
`threshold = 0.7`), invoke the RPC, and map each returned row to a
`SearchResult`. -/
def searchContent (E : Type) (dist : E → E → ℚ) (rows : List (ContentChunkRow E))
    (queryEmbedding : E) (options : SearchOptions) : List (SearchResult E) :=
  let lim := options.limit.getD 5
  let threshold := options.threshold.getD (7 / 10)
  (matchContentChunks E ℚ dist rows queryEmbedding threshold lim
      options.textbookId options.chapterId).map (fun p => ⟨p.1, p.2⟩)

/-! ## Claude JSON extraction (`askClaudeJson`, src/lib/claude/client.ts
lines 59-79). -/

/-- The backtick character. -/
def btickC : Char := Char.ofNat 96

/-- The opening brace character. -/
def lbraceC : Char := Char.ofNat 123

/-- The closing brace character. -/
def rbraceC : Char := Char.ofNat 125

/-- A JSON value. -/
inductive Json where
  | null : Json
  | bool (b : Bool) : Json
  | num (q : ℚ) : Json
  | str (s : JsStr) : Json
  | arr (elems : List Json) : Json
  | obj (fields : List (JsStr × Json)) : Json

/-- JSON insignificant whitespace. -/
def isJsonWs (c : Char) : Bool := c = ' ' || c = '\t' || c = '\n' || c = '\u000D'

/-- Skip JSON whitespace. -/
def skipJsonWs (cs : JsStr) : JsStr := cs.dropWhile isJsonWs

/-- Hex digit value, computed on the code point (48-57 are the digits,
97-102 lower-case a-f, 65-70 upper-case A-F). -/
def hexVal (c : Char) : Option Nat :=
  let n := c.toNat
  if 48 ≤ n ∧ n < 58 then some (n - 48)
  else if 97 ≤ n ∧ n < 103 then some (n - 87)
  else if 65 ≤ n ∧ n < 71 then some (n - 55)
  else none

/-- Parse the body of a JSON string literal (after the opening quote),
returning the decoded characters and the input after the closing quote. -/
def parseJsonString (fuel : Nat) (cs : JsStr) : Option (JsStr × JsStr) :=
  match fuel, cs with
  | 0, _ => none
  | _, [] => none
  | fuel + 1, c :: rest =>
    if c = '"' then some ([], rest)
    else if c = '\\' then
      match rest with
      | [] => none
      | e :: rest2 =>
        let dec : Option (Char × JsStr) :=
          if e = '"' then some ('"', rest2)
          else if e = '\\' then some ('\\', rest2)
          else if e = '/' then some ('/', rest2)
          else if e = 'b' then some ('\u0008', rest2)
          else if e = 'f' then some ('\u000C', rest2)
          else if e = 'n' then some ('\n', rest2)
          else if e = 'r' then some ('\u000D', rest2)
          else if e = 't' then some ('\t', rest2)
          else if e = 'u' then
            match rest2 with
            | h1 :: h2 :: h3 :: h4 :: rest3 =>
              match hexVal h1, hexVal h2, hexVal h3, hexVal h4 with
              | some v1, some v2, some v3, some v4 =>
                some (Char.ofNat (((v1 * 16 + v2) * 16 + v3) * 16 + v4), rest3)
              | _, _, _, _ => none
            | _ => none
          else none
        match dec with
        | some (ch, rest') =>
          (parseJsonString fuel rest').map (fun p => (ch :: p.1, p.2))
        | none => none
    else if c.toNat < 32 then none
    else (parseJsonString fuel rest).map (fun p => (c :: p.1, p.2))

/-- Parse a JSON number starting at `cs` (first character a digit or `-`),
returning its rational value and the rest. -/
def parseJsonNumber (cs : JsStr) : Option (ℚ × JsStr) :=
  let (neg, cs1) := match cs with
    | c :: rest => if c = '-' then (true, rest) else (false, cs)
    | [] => (false, cs)
  let intDigits := cs1.takeWhile isDigitCh
  if intDigits.isEmpty then none else
  let cs2 := cs1.drop intDigits.length
  let (fracDigits, cs3) : JsStr × JsStr := match cs2 with
    | c :: rest =>
      if c = '.' then (rest.takeWhile isDigitCh, rest.drop (rest.takeWhile isDigitCh).length)
      else ([], cs2)
    | [] => ([], cs2)
  if (match cs2 with | c :: _ => c = '.' | [] => false) && fracDigits.isEmpty then none else
  let expPart : Option (Bool × JsStr × JsStr) := match cs3 with
    | c :: rest =>
      if c = 'e' || c = 'E' then
        let (eneg, rest1) := match rest with
          | d :: rest' =>
            if d = '-' then (true, rest') else if d = '+' then (false, rest') else (false, rest)
          | [] => (false, rest)
        let eDigits := rest1.takeWhile isDigitCh
        if eDigits.isEmpty then none else some (eneg, eDigits, rest1.drop eDigits.length)
      else none
    | [] => none
  let mantissa : ℚ := (digitsToNat intDigits : ℚ) +
    (digitsToNat fracDigits : ℚ) / ((10 : ℚ) ^ fracDigits.length)
  let signed : ℚ := if neg then -mantissa else mantissa
  match expPart with
  | some (eneg, eDigits, rest) =>
    let e := digitsToNat eDigits
    some (if eneg then signed / (10 : ℚ) ^ e else signed * (10 : ℚ) ^ e, rest)
  | none =>
    if (match cs3 with | c :: _ => c = 'e' || c = 'E' | [] => false) then none
    else some (signed, cs3)

mutual

/-- Parse one JSON value at the head of the input (whitespace already
skipped), returning the value and the remaining input. -/
def parseJsonValue : Nat → JsStr → Option (Json × JsStr)
  | 0, _ => none
  | _ + 1, [] => none
  | fuel + 1, c :: rest =>
    if c = 'n' then
      if "ull".toList.isPrefixOf rest then some (.null, rest.drop 3) else none
    else if c = 't' then
      if "rue".toList.isPrefixOf rest then some (.bool true, rest.drop 3) else none
    else if c = 'f' then
      if "alse".toList.isPrefixOf rest then some (.bool false, rest.drop 4) else none
    else if c = '"' then
      (parseJsonString fuel rest).map (fun p => (.str p.1, p.2))
    else if c = '[' then
      match skipJsonWs rest with
      | ']' :: rest2 => some (.arr [], rest2)
      | cs2 => (parseJsonArrayItems fuel cs2).map (fun p => (.arr p.1, p.2))
    else if c = lbraceC then
      match skipJsonWs rest with
      | d :: rest2 =>
        if d = rbraceC then some (.obj [], rest2)
        else (parseJsonObjectItems fuel (d :: rest2)).map (fun p => (.obj p.1, p.2))
      | [] => none
    else if c = '-' || isDigitCh c then
      (parseJsonNumber (c :: rest)).map (fun p => (.num p.1, p.2))
    else none

/-- Parse the comma-separated items of a JSON array, up to and including the
closing bracket. -/
def parseJsonArrayItems : Nat → JsStr → Option (List Json × JsStr)
  | 0, _ => none
  | fuel + 1, cs =>
    match parseJsonValue fuel (skipJsonWs cs) with
    | none => none
    | some (v, rest) =>
      match skipJsonWs rest with
      | ',' :: rest2 =>
        (parseJsonArrayItems fuel rest2).map (fun p => (v :: p.1, p.2))
      | ']' :: rest2 => some ([v], rest2)
      | _ => none

/-- Parse the comma-separated members of a JSON object, up to and including
the closing brace. -/
def parseJsonObjectItems : Nat → JsStr → Option (List (JsStr × Json) × JsStr)
  | 0, _ => none
  | fuel + 1, cs =>
    match skipJsonWs cs with
    | '"' :: rest =>
      match parseJsonString fuel rest with
      | none => none
      | some (key, rest1) =>
        match skipJsonWs rest1 with
        | ':' :: rest2 =>
          match parseJsonValue fuel (skipJsonWs rest2) with
          | none => none
          | some (v, rest3) =>
            match skipJsonWs rest3 with
            | ',' :: rest4 =>
              (parseJsonObjectItems fuel rest4).map (fun p => ((key, v) :: p.1, p.2))
            | d :: rest4 =>
              if d = rbraceC then some ([(key, v)], rest4) else none
            | [] => none
        | _ => none
    | _ => none

end

/-- Modelled from the spec: the `JSON.parse` of the JavaScript runtime, an
external collaborator ("parses that" / "valid JSON").  A standard JSON
grammar is implemented; numeric leading-zero rejection is relaxed, which no
claim depends on.  Returns `none` exactly when the string is not accepted. -/
def jsonParse (s : JsStr) : Option Json :=
  match parseJsonValue (s.length + 1) (skipJsonWs s) with
  | some (v, rest) => if (skipJsonWs rest).isEmpty then some v else none
  | none => none

/-- The triple-backtick fence delimiter. -/
def fenceLit : JsStr := [btickC, btickC, btickC]

/-- The capture of the lazy group `([\s\S]*?)` followed by the closing
fence: everything before the first occurrence of three backticks. -/
def findFence : JsStr → Option JsStr
  | [] => none
  | c :: rest =>
    if fenceLit.isPrefixOf (c :: rest) then some []
    else (findFence rest).map (fun cap => c :: cap)

/-- Complete the fence pattern after an opening three-backtick delimiter:
`(?:json)?` (greedy, and taking it cannot lose a match the bare branch would
find, since the skipped literal contains no backtick), then greedy `\s*`,
then the lazy capture up to the closing fence. -/
def fenceComplete (cs : JsStr) : Option JsStr :=
  let afterJson := if "json".toList.isPrefixOf cs then cs.drop 4 else cs
  let body := afterJson.dropWhile isJsWs
  findFence body

/-- First match of `/```(?:json)?\s*([\s\S]*?)```/`: try the pattern at each
position, left to right, and return the capture of the first success. -/
def fenceMatch : JsStr → Option JsStr
  | [] => none
  | c :: rest =>
    if fenceLit.isPrefixOf (c :: rest) then
      match fenceComplete ((c :: rest).drop 3) with
      | some cap => some cap
      | none => fenceMatch rest
    else fenceMatch rest

/-- First match of the fallback regex `/(\{[\s\S]*\})/`: from the first
opening brace, greedily to the last closing brace of the input. -/
def braceMatch (cs : JsStr) : Option JsStr :=
  let pre := cs.takeWhile (fun c => c ≠ lbraceC)
  let fromL := cs.drop pre.length
  if fromL.isEmpty then none
  else
    let trailing := (fromL.reverse.takeWhile (fun c => c ≠ rbraceC)).length
    if trailing = fromL.length then none
    else some (fromL.take (fromL.length - trailing))

/-- The extraction of `askClaudeJson` (lines 66-67): the fence regex first,
then the brace fallback. -/
def extractJson (response : JsStr) : Option JsStr :=
  match fenceMatch response with
  | some s => some s
  | none => braceMatch response

/-- `askClaudeJson` (src/lib/claude/client.ts lines 59-79), abstracted over
the runtime's `JSON.parse` (`parse`): extract, then parse; throw
`No JSON found in Claude response` when neither regex matches, and
`Invalid JSON in Claude response` when parsing fails. -/
def askClaudeJson (parse : JsStr → Option Json) (response : JsStr) : Except JsStr Json :=
  match extractJson response with
  | none => .error ("No JSON found in Claude response".toList)
  | some s =>
    match parse s with
    | some v => .ok v
    | none => .error ("Invalid JSON in Claude response".toList)

/-! ## The extraction stage of the pipeline (`processDocumentUpload`,
src/lib/inngest/functions.ts lines 40-103). -/

/-- The JSON body returned by the conversion service's `/extract` endpoint
(the fields `processDocumentUpload` uses). -/
structure ExtractionData where
  markdown : JsStr
  page_count : Nat
deriving DecidableEq, Repr

/-- Outcome of the `fetch` to the conversion service as seen inside the
`try` block of the `extract-pdf` step. -/
inductive FetchOutcome where
  | ok (body : ExtractionData)
  | httpError (status : Nat) (statusText : JsStr)
  | networkError
deriving DecidableEq, Repr

/-- The `try` block of the `extract-pdf` step: a received non-ok response
raises `PDF extraction failed: <statusText>`; a rejected fetch raises the
network error. -/
def fetchAndCheck (r : FetchOutcome) : Except JsStr ExtractionData :=
  match r with
  | .ok body => .ok body
  | .httpError _ statusText => .error ("PDF extraction failed: ".toList ++ statusText)
  | .networkError => .error ("fetch failed".toList)

/-- The placeholder extraction result substituted by the `catch` branch
(lines 72-81). -/
def mockExtraction : ExtractionData :=
  ⟨("# Sample Document\n\nThis is placeholder content. The Python PDF extraction service is not yet running.\n\n## Chapter 1: Introduction\n\nWelcome to this document.\n\n### Exercises\n\n1. What is the main topic of this chapter?\n2. Explain the key concepts in your own words.").toList,
   10⟩

/-- The whole `extract-pdf` step: the `catch` swallows every error raised in
the `try` block — including the throw on a non-ok HTTP response — and
returns `mockExtraction` instead, so the step itself never fails. -/
def extractPdfStep (r : FetchOutcome) : ExtractionData :=
  match fetchAndCheck r with
  | .ok body => body
  | .error _ => mockExtraction

/-- An event emitted with `step.sendEvent`. -/
structure SentEvent where
  name : JsStr
  documentId : Nat
  markdown : JsStr
  pageCount : Nat
deriving DecidableEq, Repr

/-- Observable behaviour of a run of `processDocumentUpload`: the
`processing_status` values written, in order, and the events emitted. -/
structure RunTrace where
  statusWrites : List JsStr
  events : List SentEvent
deriving DecidableEq, Repr

/-- One run of `processDocumentUpload` against a conversion service whose
fetch outcome is `svc`: write `extracting`, run the (total) `extract-pdf`
step, write `structuring`, and emit `document/extracted` carrying the
extraction result.  Since every fallible operation of the `extract-pdf` step
is wrapped in its internal `try`/`catch`, no step of this function can
throw, so a single run always completes and the platform's `retries: 3`
budget is never drawn upon; no path writes the status `failed` (and no code
in src/lib/inngest/functions.ts ever writes it). -/
def processDocumentUpload (documentId : Nat) (svc : FetchOutcome) : RunTrace :=
  let extractionResult := extractPdfStep svc
  ⟨["extracting".toList, "structuring".toList],
   [⟨"document/extracted".toList, documentId, extractionResult.markdown,
     extractionResult.page_count⟩]⟩

/-! # Shared lemmas -/

/-- `jsTrim` never lengthens a string. -/
theorem jsTrim_length_le (s : JsStr) : (jsTrim s).length ≤ s.length := by
  unfold jsTrim
  have h1 := dropWhile_len_le isJsWs s
  have h2 := dropWhile_len_le isJsWs (s.dropWhile isJsWs).reverse
  simp only [List.length_reverse] at *
  omega

/-- A whitespace-only string trims to the empty string. -/
theorem jsTrim_all_ws (s : JsStr) (h : ∀ c ∈ s, isJsWs c = true) : jsTrim s = [] := by
  unfold jsTrim
  have h1 : s.dropWhile isJsWs = [] := List.dropWhile_eq_nil_iff.mpr h
  simp [h1]

/-! # C8 — sanitizer character removal -/

/-- Claim C8 (counterexample): the carriage return U+000D is a non-printable
control character other than newline and tab, yet `sanitizeText` preserves it
(it is outside both removal classes, and NFC fixes it), so the output is not
free of control characters other than `\n` and `\t`. -/
theorem sanitizeText_carriage_return_counterexample :
    sanitizeText nfcModel ['\u000D'] = ['\u000D'] ∧
    isControlChar '\u000D' = true ∧ '\u000D' ≠ '\n' ∧ '\u000D' ≠ '\t' := by
  refine ⟨rfl, rfl, ?_, ?_⟩ <;> decide

/-- Claim C8 (amended): `sanitizeText` removes exactly the null character and
the controls U+0001–U+0008, U+000B, U+000C, U+000E–U+001F (so tab, newline
and carriage return survive, as do DEL and the C1 controls); provided the
normalizer introduces no character of the removed classes (true of Unicode
NFC), no character of the output lies in a removed class.  The function is
total by construction. -/
theorem sanitizeText_removes_claimed_controls (nfc : JsStr → JsStr) (text : JsStr)
    (hpres : ∀ t : JsStr, (∀ c ∈ t, isNullByte c = false ∧ isRemovedControl c = false) →
      ∀ c ∈ nfc t, isNullByte c = false ∧ isRemovedControl c = false) :
    ∀ c ∈ sanitizeText nfc text, isNullByte c = false ∧ isRemovedControl c = false := by
  unfold sanitizeText
  apply hpres
  intro c hc
  have h1 := List.of_mem_filter hc
  have h2 := List.mem_of_mem_filter hc
  have h3 := List.of_mem_filter h2
  simp only [Bool.not_eq_true'] at h1 h3
  exact ⟨h3, h1⟩

/-- Witness for C8's amended theorem at a concrete input (NFC instantiated
with its model, which satisfies the preservation hypothesis trivially). -/
theorem sanitizeText_removes_claimed_controls_witness :
    (sanitizeText nfcModel ("a\u0000b\u0001\u000D".toList)).all
      (fun c => !isNullByte c && !isRemovedControl c) = true := by
  have h := sanitizeText_removes_claimed_controls nfcModel ("a\u0000b\u0001\u000D".toList)
    (fun t ht => ht)
  apply List.all_eq_true.mpr
  intro c hc
  simp [(h c hc).1, (h c hc).2]

/-! # C9 — sanitizer idempotence -/

/-- Claim C9: `sanitizeText` is idempotent, given that the external
normalizer is idempotent and never introduces characters of the removed
classes — both properties of Unicode NFC. -/
theorem sanitizeText_idempotent (nfc : JsStr → JsStr)
    (hidem : ∀ t : JsStr, nfc (nfc t) = nfc t)
    (hpres : ∀ t : JsStr, (∀ c ∈ t, isNullByte c = false ∧ isRemovedControl c = false) →
      ∀ c ∈ nfc t, isNullByte c = false ∧ isRemovedControl c = false)
    (text : JsStr) :
    sanitizeText nfc (sanitizeText nfc text) = sanitizeText nfc text := by
  unfold sanitizeText
  set y := (text.filter (fun c => !isNullByte c)).filter (fun c => !isRemovedControl c) with hy
  have hyProp : ∀ c ∈ y, isNullByte c = false ∧ isRemovedControl c = false := by
    intro c hc
    rw [hy] at hc
    have h1 := List.of_mem_filter hc
    have h2 := List.mem_of_mem_filter hc
    have h3 := List.of_mem_filter h2
    simp only [Bool.not_eq_true'] at h1 h3
    exact ⟨h3, h1⟩
  have hnfcy := hpres y hyProp
  have e1 : (nfc y).filter (fun c => !isNullByte c) = nfc y := by
    apply List.filter_eq_self.mpr
    intro c hc
    simp only [Bool.not_eq_true', (hnfcy c hc).1]
  have e2 : ((nfc y).filter (fun c => !isNullByte c)).filter (fun c => !isRemovedControl c) =
      nfc y := by
    rw [e1]
    apply List.filter_eq_self.mpr
    intro c hc
    simp only [Bool.not_eq_true', (hnfcy c hc).2]
  rw [e2, hidem]

/-- Witness for C9 at a concrete input, instantiating the normalizer with its
model. -/
theorem sanitizeText_idempotent_witness :
    sanitizeText nfcModel (sanitizeText nfcModel ("a\u0000b\u0001c".toList)) =
      sanitizeText nfcModel ("a\u0000b\u0001c".toList) := by
  exact sanitizeText_idempotent nfcModel (fun t => rfl) (fun t ht => ht)
    ("a\u0000b\u0001c".toList)

/-! # C10 — cosine similarity -/

/-- Claim C10: `cosineSimilarity` throws exactly when the two vectors have
different lengths; on equal lengths it returns the dot product divided by the
product of the Euclidean norms (numbers idealized as reals). -/
theorem cosineSimilarity_spec (a b : List ℝ) :
    (a.length = b.length →
      cosineSimilarity a b =
        .ok (dotProduct a b /
          (Real.sqrt (dotProduct a a) * Real.sqrt (dotProduct b b)))) ∧
    (a.length ≠ b.length →
      cosineSimilarity a b = .error ("Embeddings must have the same dimensions".toList)) := by
  constructor
  · intro h
    unfold cosineSimilarity
    simp [h]
  · intro h
    unfold cosineSimilarity
    simp [h]

/-- Witness for C10 at concrete vectors: equal lengths give the quotient
formula, unequal lengths give the error. -/
theorem cosineSimilarity_spec_witness :
    cosineSimilarity [(1 : ℝ), 0] [0, 1] =
      .ok (dotProduct [(1 : ℝ), 0] [0, 1] /
        (Real.sqrt (dotProduct [(1 : ℝ), 0] [(1 : ℝ), 0]) *
          Real.sqrt (dotProduct [(0 : ℝ), 1] [(0 : ℝ), 1]))) ∧
    cosineSimilarity [(1 : ℝ)] [] = .error ("Embeddings must have the same dimensions".toList) := by
  exact ⟨(cosineSimilarity_spec [(1 : ℝ), 0] [0, 1]).1 rfl,
    (cosineSimilarity_spec [(1 : ℝ)] []).2 (by decide)⟩

/-! # C1 — repeated HTTP 500 during extraction -/

/-- Claim C1 (counterexample): with the conversion service returning HTTP 500,
the `try` block of the extract-pdf step does raise, but the `catch` swallows
the error and substitutes the placeholder extraction, so the run writes
`extracting` then `structuring` — never `failed` — and emits the
`document/extracted` trigger for the next stage. -/
theorem processDocumentUpload_http500_counterexample :
    fetchAndCheck (.httpError 500 ("Internal Server Error".toList)) =
      .error ("PDF extraction failed: Internal Server Error".toList) ∧
    extractPdfStep (.httpError 500 ("Internal Server Error".toList)) = mockExtraction ∧
    processDocumentUpload 1 (.httpError 500 ("Internal Server Error".toList)) =
      ⟨["extracting".toList, "structuring".toList],
       [⟨"document/extracted".toList, 1, mockExtraction.markdown, 10⟩]⟩ ∧
    "failed".toList ∉
      (processDocumentUpload 1 (.httpError 500 ("Internal Server Error".toList))).statusWrites := by
  refine ⟨rfl, rfl, rfl, by decide⟩

/-- Claim C1 (amended): whatever the conversion service does — success,
repeated HTTP 500, or network failure — a single run of
`processDocumentUpload` completes: it writes exactly `extracting` then
`structuring` (never `failed`, which no code of the pipeline writes), and
emits the `document/extracted` event carrying the extract-pdf step's result
(the real body on success, the placeholder on any error), so the pipeline
always proceeds to the structuring stage and the retry budget is never
consumed. -/
theorem processDocumentUpload_never_fails (documentId : Nat) (svc : FetchOutcome) :
    processDocumentUpload documentId svc =
      ⟨["extracting".toList, "structuring".toList],
       [⟨"document/extracted".toList, documentId, (extractPdfStep svc).markdown,
         (extractPdfStep svc).page_count⟩]⟩ ∧
    "failed".toList ∉ (processDocumentUpload documentId svc).statusWrites := by
  refine ⟨rfl, ?_⟩
  unfold processDocumentUpload
  simp only [List.mem_cons, List.mem_singleton]
  rintro (h | h | h) <;> simp_all

/-! # C4 — empty / whitespace-only input -/

/-- The header pattern can only match at a hash character. -/
theorem headerAt_no_hash (c : Char) (rest : JsStr) (h : c ≠ '#') :
    headerAt (c :: rest) = none := by
  unfold headerAt
  split
  · rename_i heq
    cases heq
    exact absurd rfl h
  · rename_i heq
    injection heq with h1 h2
    exact absurd h1 h
  · rfl

/-- The regex scan over a text with no hash character finds no match. -/
theorem findMatchesAux_no_hash (fuel : Nat) :
    ∀ cs : JsStr, (∀ c ∈ cs, c ≠ '#') →
    ∀ pos lineStart, findMatchesAux fuel cs pos lineStart = [] := by
  induction fuel with
  | zero => intro cs _ pos lineStart; rfl
  | succ fuel ih =>
    intro cs h pos lineStart
    match cs with
    | [] => rfl
    | c :: rest =>
      have hc : c ≠ '#' := h c (List.mem_cons_self c rest)
      have hrest : ∀ x ∈ rest, x ≠ '#' := fun x hx => h x (List.mem_cons_of_mem c hx)
      unfold findMatchesAux
      rw [headerAt_no_hash c rest hc]
      by_cases hls : lineStart <;> simp [hls, ih rest hrest]

/-- A whitespace-only text splits into the single fallback section holding
the whole text. -/
theorem splitByHeaders_all_ws (s : JsStr) (h : ∀ c ∈ s, isJsWs c = true) :
    splitByHeaders s = [⟨none, none, s⟩] := by
  have hnohash : ∀ c ∈ s, c ≠ '#' := by
    intro c hc heq
    have := h c hc
    rw [heq] at this
    simp [isJsWs] at this
  unfold splitByHeaders findHeaderMatches
  rw [findMatchesAux_no_hash (s.length + 1) s hnohash 0 true]
  unfold sbhLoop
  simp [jsTrim_all_ws s h]

/-- Claim C4 (counterexample): the empty input and a whitespace-only input do
not yield zero chunks — each yields exactly one chunk carrying the
(whitespace) text itself, via the whole-text fallback section. -/
theorem chunkText_empty_counterexample :
    chunkText nfcModel [] emptyOptions = [⟨[], 0, 0, 0, none, none, none⟩] ∧
    chunkText nfcModel (" ".toList) emptyOptions = [⟨[' '], 0, 0, 1, none, none, none⟩] := by
  exact ⟨rfl, rfl⟩

/-- Claim C4 (amended): an input that is empty or whitespace-only after
sanitization (and no longer than `maxChunkSize`) yields exactly one chunk —
not zero — whose content is the sanitized text itself, spanning offsets `0`
to its length, with no section title or chapter number. -/
theorem chunkText_whitespace_single_chunk (nfc : JsStr → JsStr) (text : JsStr)
    (options : ChunkOptions)
    (hws : ∀ c ∈ sanitizeText nfc text, isJsWs c = true)
    (hlen : (sanitizeText nfc text).length ≤ (mergeOptions options).maxChunkSize) :
    chunkText nfc text options =
      [⟨sanitizeText nfc text, 0, 0, (sanitizeText nfc text).length, none, none, none⟩] := by
  unfold chunkText
  rw [splitByHeaders_all_ws (sanitizeText nfc text) hws]
  unfold chunkTextAux
  rw [chunkSection]
  simp [hlen, setSectionMeta, chunkTextAux]

/-- Witness for C4's amended theorem at the concrete whitespace input
`"  "`. -/
theorem chunkText_whitespace_single_chunk_witness :
    chunkText nfcModel ("  ".toList) emptyOptions =
      [⟨sanitizeText nfcModel ("  ".toList), 0, 0,
        (sanitizeText nfcModel ("  ".toList)).length, none, none, none⟩] := by
  exact chunkText_whitespace_single_chunk nfcModel ("  ".toList) emptyOptions
    (by decide) (by decide)

/-! # C2 — chunk coverage -/

/-- The chunk list produced when every section fits in one chunk: one chunk
per section, carrying the section's content, consecutive indices, and
offsets that are running sums of section lengths. -/
def flatSections : List Sect → Nat → Int → List TextChunk
  | [], _, _ => []
  | s :: rest, chunkIndex, off =>
    ⟨s.content, chunkIndex, off, off + (s.content.length : Int), none,
      s.chapterNumber, s.title⟩ ::
      flatSections rest (chunkIndex + 1) (off + (s.content.length : Int))

/-- When every section's content fits within `maxChunkSize`, the chunk loop
emits exactly one chunk per section. -/
theorem chunkTextAux_fits (opts : ResolvedChunkOptions) (secs : List Sect)
    (h : ∀ s ∈ secs, s.content.length ≤ opts.maxChunkSize) :
    ∀ i off, chunkTextAux opts secs i off = flatSections secs i off := by
  induction secs with
  | nil => intro i off; rfl
  | cons s rest ih =>
    intro i off
    have hs : s.content.length ≤ opts.maxChunkSize := h s (List.mem_cons_self s rest)
    have hrest : ∀ x ∈ rest, x.content.length ≤ opts.maxChunkSize :=
      fun x hx => h x (List.mem_cons_of_mem s hx)
    unfold chunkTextAux flatSections
    rw [chunkSection]
    simp only [if_pos hs, List.map_cons, List.map_nil, List.length_cons, List.length_nil,
      List.singleton_append]
    rw [ih hrest]
    rfl

/-- Length of `flatSections`. -/
theorem flatSections_length (secs : List Sect) :
    ∀ i off, (flatSections secs i off).length = secs.length := by
  induction secs with
  | nil => intro i off; rfl
  | cons s rest ih => intro i off; simp [flatSections, ih]

/-- Contents of `flatSections` are the section contents. -/
theorem flatSections_map_content (secs : List Sect) :
    ∀ i off, (flatSections secs i off).map TextChunk.content = secs.map Sect.content := by
  induction secs with
  | nil => intro i off; rfl
  | cons s rest ih => intro i off; simp [flatSections, ih]

/-- The chunk of `flatSections` at position `k`: content is the section's
content, `startChar` is the base offset plus the lengths of the preceding
sections, and `endChar` is `startChar` plus the content length. -/
theorem flatSections_get (secs : List Sect) :
    ∀ (k : Nat) i off (hk : k < (flatSections secs i off).length),
      ((flatSections secs i off).get ⟨k, hk⟩).content =
        (secs.get ⟨k, by rw [← flatSections_length secs i off]; exact hk⟩).content ∧
      ((flatSections secs i off).get ⟨k, hk⟩).startChar =
        off + (((secs.take k).map (fun s => s.content.length)).sum : Int) ∧
      ((flatSections secs i off).get ⟨k, hk⟩).endChar =
        ((flatSections secs i off).get ⟨k, hk⟩).startChar +
          (((flatSections secs i off).get ⟨k, hk⟩).content.length : Int) := by
  induction secs with
  | nil =>
    intro k i off hk
    simp [flatSections] at hk
  | cons s rest ih =>
    intro k i off hk
    match k with
    | 0 => simp [flatSections]
    | k + 1 =>
      have hk' : k < (flatSections rest (i + 1) (off + (s.content.length : Int))).length := by
        simpa [flatSections] using hk
      have := ih k (i + 1) (off + (s.content.length : Int)) hk'
      simp only [flatSections, List.get_cons_succ, List.take_succ_cons, List.map_cons,
        List.sum_cons, List.get_cons_succ] at this ⊢
      refine ⟨this.1, ?_, this.2.2⟩
      rw [this.2.1]
      ring

/-- Extracting the `k`-th block of a concatenation: dropping the lengths of
the first `k` blocks and taking the `k`-th block's length recovers it. -/
theorem join_drop_take (L : List (List Char)) :
    ∀ (k : Nat) (hk : k < L.length),
      ((L.flatten.drop (((L.take k).map List.length).sum)).take (L.get ⟨k, hk⟩).length) =
        L.get ⟨k, hk⟩ := by
  induction L with
  | nil => intro k hk; simp at hk
  | cons l L ih =>
    intro k hk
    match k with
    | 0 =>
      simp only [List.take_zero, List.map_nil, List.sum_nil, List.drop_zero, List.flatten_cons,
        List.get_cons_zero]
      exact List.take_left l L.flatten
    | k + 1 =>
      have hk' : k < L.length := by simpa using hk
      have := ih k hk'
      simp only [List.take_succ_cons, List.map_cons, List.sum_cons, List.flatten_cons,
        List.get_cons_succ]
      rw [List.drop_append (((L.take k).map List.length).sum)]
      exact this

/-- Claim C2 (counterexample): chunk contents do not reconstruct the
sanitized input — leading whitespace of the first section is trimmed away
(input `" a"`), and header lines are dropped entirely (input `"# T\nabc"`);
moreover the recorded offsets of the chunk of `" a"` delimit the span
`" "` of the sanitized input, not its content `"a"`. -/
theorem chunkText_coverage_counterexample :
    ((chunkText nfcModel (" a".toList) emptyOptions).map TextChunk.content).flatten ≠
      sanitizeText nfcModel (" a".toList) ∧
    (chunkText nfcModel (" a".toList) emptyOptions).map TextChunk.startChar = [0] ∧
    (chunkText nfcModel (" a".toList) emptyOptions).map TextChunk.endChar = [1] ∧
    ((sanitizeText nfcModel (" a".toList)).drop 0).take 1 = [' '] ∧
    (chunkText nfcModel (" a".toList) emptyOptions).map TextChunk.content = [['a']] ∧
    ((chunkText nfcModel ("# T\nabc".toList) emptyOptions).map TextChunk.content).flatten =
      "abc".toList ∧
    sanitizeText nfcModel ("# T\nabc".toList) = "# T\nabc".toList := by
  refine ⟨by decide, by decide, by decide, by decide, by decide, by decide, by decide⟩

/-- Claim C2 (amended): concatenating the chunks' contents in index order
reconstructs the concatenation of the section contents produced by header
splitting — the sanitized input minus header lines and trimmed
section-boundary whitespace — not the sanitized input itself; and (when
every section fits within `maxChunkSize`, so that chunks and sections
correspond one to one) each chunk's `startChar`/`endChar` delimit exactly
its span within that concatenated section text. -/
theorem chunkText_section_coverage (nfc : JsStr → JsStr) (text : JsStr)
    (options : ChunkOptions)
    (hfits : ∀ s ∈ splitByHeaders (sanitizeText nfc text),
      s.content.length ≤ (mergeOptions options).maxChunkSize) :
    ((chunkText nfc text options).map TextChunk.content =
      (splitByHeaders (sanitizeText nfc text)).map Sect.content) ∧
    (∀ (k : Nat) (hk : k < (chunkText nfc text options).length),
      ((chunkText nfc text options).get ⟨k, hk⟩).startChar =
        ((((splitByHeaders (sanitizeText nfc text)).take k).map
          (fun s => s.content.length)).sum : Int) ∧
      ((chunkText nfc text options).get ⟨k, hk⟩).endChar =
        ((chunkText nfc text options).get ⟨k, hk⟩).startChar +
          (((chunkText nfc text options).get ⟨k, hk⟩).content.length : Int) ∧
      ((((splitByHeaders (sanitizeText nfc text)).map Sect.content).flatten.drop
          ((((splitByHeaders (sanitizeText nfc text)).take k).map
            (fun s => s.content.length)).sum)).take
        ((chunkText nfc text options).get ⟨k, hk⟩).content.length) =
        ((chunkText nfc text options).get ⟨k, hk⟩).content) := by
  have hrw : chunkText nfc text options =
      flatSections (splitByHeaders (sanitizeText nfc text)) 0 0 := by
    unfold chunkText
    exact chunkTextAux_fits (mergeOptions options) _ hfits 0 0
  constructor
  · rw [hrw]
    exact flatSections_map_content _ 0 0
  · rw [hrw]
    intro k hk2
    have hsec : k < (splitByHeaders (sanitizeText nfc text)).length := by
      rw [← flatSections_length (splitByHeaders (sanitizeText nfc text)) 0 0]; exact hk2
    have hget := flatSections_get (splitByHeaders (sanitizeText nfc text)) k 0 0 hk2
    refine ⟨by rw [hget.2.1]; ring, hget.2.2, ?_⟩
    have hmap : ((splitByHeaders (sanitizeText nfc text)).map Sect.content).get
        ⟨k, by simpa using hsec⟩ =
        ((splitByHeaders (sanitizeText nfc text)).get ⟨k, hsec⟩).content := by
      simp
    have hjoin := join_drop_take ((splitByHeaders (sanitizeText nfc text)).map Sect.content)
      k (by simpa using hsec)
    rw [hmap] at hjoin
    rw [hget.1]
    have htake : (((splitByHeaders (sanitizeText nfc text)).map Sect.content).take k).map
        List.length =
        ((splitByHeaders (sanitizeText nfc text)).take k).map (fun s => s.content.length) := by
      rw [← List.map_take, List.map_map]
      rfl
    rw [htake] at hjoin
    exact hjoin

/-- Witness for C2's amended theorem at a concrete headed input whose
sections all fit in one chunk. -/
theorem chunkText_section_coverage_witness :
    ((chunkText nfcModel ("intro\n# 1 One\nalpha".toList) emptyOptions).map
      TextChunk.content =
      (splitByHeaders (sanitizeText nfcModel ("intro\n# 1 One\nalpha".toList))).map
        Sect.content) := by
  exact (chunkText_section_coverage nfcModel ("intro\n# 1 One\nalpha".toList) emptyOptions
    (by decide)).1

/-! # C3 — chunk size bounds -/

/-- After a push-and-reset, the buffer holds at most `overlapSize`
characters. -/
theorem pushReset_cur_le (opts : ResolvedChunkOptions) (i : Nat) (st : CState) :
    (pushReset opts i st).cur.length ≤ opts.overlapSize := by
  unfold pushReset
  simp only [List.length_drop]
  omega

/-- A push-and-reset appends one chunk whose content is the trimmed buffer;
if the buffer was within `maxChunkSize` and all previous chunks were too,
all chunks still are. -/
theorem pushReset_chunks_le (opts : ResolvedChunkOptions) (i : Nat) (st : CState)
    (h1 : st.cur.length ≤ opts.maxChunkSize)
    (h2 : ∀ c ∈ st.chunks, c.content.length ≤ opts.maxChunkSize) :
    ∀ c ∈ (pushReset opts i st).chunks, c.content.length ≤ opts.maxChunkSize := by
  unfold pushReset
  intro c hc
  simp only [List.mem_append, List.mem_singleton] at hc
  rcases hc with hc | hc
  · exact h2 c hc
  · subst hc
    exact le_trans (jsTrim_length_le st.cur) h1

/-- One paragraph step preserves the size invariant, provided the paragraph
(with its `\n\n` terminator) fits in `maxChunkSize - overlapSize`.  Under
that proviso the sentence fallback is unreachable. -/
theorem paraStep_inv (opts : ResolvedChunkOptions) (i : Nat) (st : CState) (p : JsStr)
    (hp : p.length + 2 + opts.overlapSize ≤ opts.maxChunkSize)
    (h1 : st.cur.length ≤ opts.maxChunkSize)
    (h2 : ∀ c ∈ st.chunks, c.content.length ≤ opts.maxChunkSize) :
    (paraStep opts i st p).cur.length ≤ opts.maxChunkSize ∧
    ∀ c ∈ (paraStep opts i st p).chunks, c.content.length ≤ opts.maxChunkSize := by
  unfold paraStep
  have hpwb : (p ++ ['\n', '\n']).length = p.length + 2 := by simp
  have hnoSent : ¬ opts.maxChunkSize < (p ++ ['\n', '\n']).length := by
    rw [hpwb]; omega
  by_cases hpush : opts.maxChunkSize < st.cur.length + (p ++ ['\n', '\n']).length ∧
      0 < st.cur.length
  · simp only [if_pos hpush, if_neg hnoSent]
    constructor
    · simp only [List.length_append, hpwb]
      have := pushReset_cur_le opts i st
      omega
    · exact pushReset_chunks_le opts i st h1 h2
  · simp only [if_neg hpush, if_neg hnoSent]
    rcases Decidable.not_and_iff_or_not.mp hpush with hc | hc
    · constructor
      · simp only [List.length_append, hpwb]
        omega
      · exact h2
    · have hcur : st.cur.length = 0 := by omega
      constructor
      · simp only [List.length_append, hpwb]
        omega
      · exact h2

/-- The paragraph fold preserves the size invariant. -/
theorem foldl_paraStep_inv (opts : ResolvedChunkOptions) (i : Nat) :
    ∀ (ps : List JsStr) (st : CState),
      (∀ p ∈ ps, p.length + 2 + opts.overlapSize ≤ opts.maxChunkSize) →
      st.cur.length ≤ opts.maxChunkSize →
      (∀ c ∈ st.chunks, c.content.length ≤ opts.maxChunkSize) →
      (ps.foldl (paraStep opts i) st).cur.length ≤ opts.maxChunkSize ∧
      ∀ c ∈ (ps.foldl (paraStep opts i) st).chunks,
        c.content.length ≤ opts.maxChunkSize := by
  intro ps
  induction ps with
  | nil => intro st _ h1 h2; exact ⟨h1, h2⟩
  | cons p ps ih =>
    intro st hps h1 h2
    have hp := hps p (List.mem_cons_self p ps)
    have hrest : ∀ q ∈ ps, q.length + 2 + opts.overlapSize ≤ opts.maxChunkSize :=
      fun q hq => hps q (List.mem_cons_of_mem p hq)
    have hstep := paraStep_inv opts i st p hp h1 h2
    simpa using ih (paraStep opts i st p) hrest hstep.1 hstep.2

/-- Claim C3 (amended): in `chunkSection`, provided every paragraph of the
section (with its two-newline terminator) fits within
`maxChunkSize - overlapSize`, every chunk except possibly the last has
content length at most `maxChunkSize`.  (Without the proviso a non-final
chunk may exceed `maxChunkSize`, and a non-final chunk may also fall below
`minChunkSize` — only the trailing buffer is guarded by `minChunkSize` —
see the counterexample.) -/
theorem chunkSection_size_bound (text : JsStr) (opts : ResolvedChunkOptions)
    (startIndex : Nat) (off : Int)
    (hunits : ∀ p ∈ splitParagraphs text,
      p.length + 2 + opts.overlapSize ≤ opts.maxChunkSize) :
    ∀ c ∈ (chunkSection text opts startIndex off).dropLast,
      c.content.length ≤ opts.maxChunkSize := by
  unfold chunkSection
  by_cases hfit : text.length ≤ opts.maxChunkSize
  · simp [hfit]
  · rw [if_neg hfit]
    have hinv := foldl_paraStep_inv opts startIndex (splitParagraphs text)
      ⟨[], [], off, off⟩ hunits (by simp) (by simp)
    set stF := (splitParagraphs text).foldl (paraStep opts startIndex)
      ⟨[], [], off, off⟩ with hstF
    unfold finalizeChunks
    by_cases htail : opts.minChunkSize ≤ (jsTrim stF.cur).length
    · rw [if_pos htail]
      intro c hc
      rw [List.dropLast_concat] at hc
      exact hinv.2 c hc
    · rw [if_neg htail]
      by_cases hne : stF.chunks ≠ []
      · rw [if_pos hne]
        intro c hc
        unfold modifyLast at hc
        rw [List.getLast?_eq_getLast stF.chunks hne] at hc
        simp only [Option.map_some', Option.toList_some] at hc
        rw [List.dropLast_concat] at hc
        exact hinv.2 c (List.dropLast_sublist stF.chunks |>.subset hc)
      · rw [if_neg hne]
        intro c hc
        simp at hc

/-- Witness for C3's amended theorem: a three-paragraph section chunked with
`maxChunkSize = 10`, `minChunkSize = 1`, `overlapSize = 0`. -/
theorem chunkSection_size_bound_witness :
    ((chunkSection ("aaa\n\nbbb\n\nccc".toList) ⟨10, 1, 0, true⟩ 0 0).dropLast).all
      (fun c => c.content.length ≤ 10) = true := by
  have h := chunkSection_size_bound ("aaa\n\nbbb\n\nccc".toList) ⟨10, 1, 0, true⟩ 0 0
    (by decide)
  apply List.all_eq_true.mpr
  intro c hc
  simpa using h c hc

/-- Claim C3 (counterexample): with `maxChunkSize = 10`, `minChunkSize = 5`,
`overlapSize = 0 < maxChunkSize`, the single-section input
`"hi\n\nAaaaaaaaaaaaaaaa. Bbbbbbbbbbbbbbbb."` produces chunks of content
lengths `[2, 17, 17]`: the second chunk (not the last of its section)
exceeds `maxChunkSize`, and the first (not the sole chunk of its section)
is below `minChunkSize`. -/
theorem chunkText_size_counterexample :
    ((chunkText nfcModel ("hi\n\nAaaaaaaaaaaaaaaa. Bbbbbbbbbbbbbbbb.".toList)
        ⟨some 10, some 5, some 0, none⟩).map (fun c => c.content.length)) = [2, 17, 17] ∧
    (splitByHeaders (sanitizeText nfcModel
        ("hi\n\nAaaaaaaaaaaaaaaa. Bbbbbbbbbbbbbbbb.".toList))).length = 1 ∧
    (mergeOptions ⟨some 10, some 5, some 0, none⟩).overlapSize <
      (mergeOptions ⟨some 10, some 5, some 0, none⟩).maxChunkSize ∧
    (mergeOptions ⟨some 10, some 5, some 0, none⟩).maxChunkSize <
      (((chunkText nfcModel ("hi\n\nAaaaaaaaaaaaaaaa. Bbbbbbbbbbbbbbbb.".toList)
          ⟨some 10, some 5, some 0, none⟩).dropLast).map
        (fun c => c.content.length)).getD 1 0 ∧
    ((chunkText nfcModel ("hi\n\nAaaaaaaaaaaaaaaa. Bbbbbbbbbbbbbbbb.".toList)
        ⟨some 10, some 5, some 0, none⟩).map (fun c => c.content.length)).getD 0 0 <
      (mergeOptions ⟨some 10, some 5, some 0, none⟩).minChunkSize := by
  refine ⟨by decide, by decide, by decide, by decide, by decide⟩

/-! # C5 — embedding batching, order preservation, truncation -/

/-- Reading a list back off by successive positions recovers it. -/
theorem map_getD_range (l : List JsStr) :
    (List.range l.length).map (fun j => l.getD j []) = l := by
  induction l with
  | nil => rfl
  | cons a l ih =>
    rw [List.length_cons, List.range_succ_eq_map, List.map_cons, List.map_map]
    simp only [List.getD_cons_zero]
    have hcomp : ((fun j => (a :: l).getD j []) ∘ Nat.succ) = (fun j => l.getD j []) := by
      funext j
      simp
    rw [hcomp, ih]

/-- Splitting the consecutive naturals at the batch boundary. -/
theorem range'_batch_split (i n : Nat) :
    List.range' i (min MAX_BATCH_SIZE n) ++
      List.range' (i + MAX_BATCH_SIZE) (n - MAX_BATCH_SIZE) = List.range' i n := by
  by_cases hc : n ≤ MAX_BATCH_SIZE
  · have h1 : min MAX_BATCH_SIZE n = n := by omega
    have h2 : n - MAX_BATCH_SIZE = 0 := by omega
    rw [h1, h2]
    simp
  · have h1 : min MAX_BATCH_SIZE n = MAX_BATCH_SIZE := by omega
    have := List.range'_append i MAX_BATCH_SIZE (n - MAX_BATCH_SIZE) 1
    simp only [Nat.one_mul] at this
    rw [h1, this]
    congr 1
    omega

/-- The batch loop of `generateEmbeddings`, given a provider that returns
one embedding per input: indices are the consecutive naturals starting at
the loop counter, and texts are the original inputs. -/
theorem genEmbLoop_spec (E : Type) (provider : List JsStr → List E)
    (hp : ∀ b, (provider b).length = b.length) :
    ∀ (fuel : Nat) (ts : List JsStr) (i : Nat), ts.length < fuel →
      (genEmbLoop E provider fuel ts i).map (fun r => r.index) = List.range' i ts.length ∧
      (genEmbLoop E provider fuel ts i).map (fun r => r.text) = ts := by
  intro fuel
  induction fuel with
  | zero => intro ts i h; omega
  | succ fuel ih =>
    intro ts i h
    match ts with
    | [] => exact ⟨rfl, rfl⟩
    | t :: ts =>
      have hlen : ((t :: ts).drop MAX_BATCH_SIZE).length < fuel := by
        simp only [List.length_drop, List.length_cons] at *
        simp only [MAX_BATCH_SIZE]
        omega
      have ihrec := ih ((t :: ts).drop MAX_BATCH_SIZE) (i + MAX_BATCH_SIZE) hlen
      have hresp : (provider (((t :: ts).take MAX_BATCH_SIZE).map truncateText)).length =
          ((t :: ts).take MAX_BATCH_SIZE).length := by
        rw [hp]; simp
      constructor
      · show ((provider (((t :: ts).take MAX_BATCH_SIZE).map truncateText)).enum.map
            (fun je => (⟨((t :: ts).take MAX_BATCH_SIZE).getD je.1 [], je.2, i + je.1⟩ :
              EmbeddingResult E)) ++
            genEmbLoop E provider fuel ((t :: ts).drop MAX_BATCH_SIZE)
              (i + MAX_BATCH_SIZE)).map (fun r => r.index) = _
        rw [List.map_append, List.map_map]
        have e1 : ((provider (((t :: ts).take MAX_BATCH_SIZE).map truncateText)).enum.map
            ((fun r : EmbeddingResult E => r.index) ∘
              (fun je => ⟨((t :: ts).take MAX_BATCH_SIZE).getD je.1 [], je.2, i + je.1⟩))) =
            (List.range (((t :: ts).take MAX_BATCH_SIZE)).length).map (fun j => i + j) := by
          have : ((fun r : EmbeddingResult E => r.index) ∘
              (fun je : Nat × E =>
                (⟨((t :: ts).take MAX_BATCH_SIZE).getD je.1 [], je.2, i + je.1⟩ :
                  EmbeddingResult E))) =
              ((fun j => i + j) ∘ Prod.fst) := rfl
          rw [this, ← List.map_map, List.enum_map_fst, hresp]
        rw [e1, ihrec.1]
        have hmin : ((t :: ts).take MAX_BATCH_SIZE).length =
            min MAX_BATCH_SIZE (t :: ts).length := by simp
        have hr : (List.range (min MAX_BATCH_SIZE (t :: ts).length)).map (fun j => i + j) =
            List.range' i (min MAX_BATCH_SIZE (t :: ts).length) := by
          rw [List.range_eq_range', List.map_add_range']
          norm_num
        rw [hmin, hr, List.length_drop]
        exact range'_batch_split i (t :: ts).length
      · show ((provider (((t :: ts).take MAX_BATCH_SIZE).map truncateText)).enum.map
            (fun je => (⟨((t :: ts).take MAX_BATCH_SIZE).getD je.1 [], je.2, i + je.1⟩ :
              EmbeddingResult E)) ++
            genEmbLoop E provider fuel ((t :: ts).drop MAX_BATCH_SIZE)
              (i + MAX_BATCH_SIZE)).map (fun r => r.text) = _
        rw [List.map_append, List.map_map]
        have e1 : ((provider (((t :: ts).take MAX_BATCH_SIZE).map truncateText)).enum.map
            ((fun r : EmbeddingResult E => r.text) ∘
              (fun je => ⟨((t :: ts).take MAX_BATCH_SIZE).getD je.1 [], je.2, i + je.1⟩))) =
            (List.range (((t :: ts).take MAX_BATCH_SIZE)).length).map
              (fun j => ((t :: ts).take MAX_BATCH_SIZE).getD j []) := by
          have : ((fun r : EmbeddingResult E => r.text) ∘
              (fun je : Nat × E =>
                (⟨((t :: ts).take MAX_BATCH_SIZE).getD je.1 [], je.2, i + je.1⟩ :
                  EmbeddingResult E))) =
              ((fun j => ((t :: ts).take MAX_BATCH_SIZE).getD j []) ∘ Prod.fst) := rfl
          rw [this, ← List.map_map, List.enum_map_fst, hresp]
        rw [e1, map_getD_range, ihrec.2, List.take_append_drop]

/-- `truncateText` never exceeds the character budget. -/
theorem truncateText_length_le (t : JsStr) :
    (truncateText t).length ≤ MAX_TOKENS_PER_REQUEST * 4 := by
  show (if t.length ≤ MAX_TOKENS_PER_REQUEST * 4 then t
    else t.take (MAX_TOKENS_PER_REQUEST * 4)).length ≤ MAX_TOKENS_PER_REQUEST * 4
  by_cases h : t.length ≤ MAX_TOKENS_PER_REQUEST * 4
  · rw [if_pos h]
    exact h
  · rw [if_neg h]
    simp

/-- The provider batches flatten back to the truncation of the inputs. -/
theorem sentBatchesAux_flatten :
    ∀ (fuel : Nat) (ts : List JsStr), ts.length < fuel →
      (sentBatchesAux fuel ts).flatten = ts.map truncateText := by
  intro fuel
  induction fuel with
  | zero => intro ts h; omega
  | succ fuel ih =>
    intro ts h
    match ts with
    | [] => rfl
    | t :: ts =>
      have hlen : ((t :: ts).drop MAX_BATCH_SIZE).length < fuel := by
        simp only [List.length_drop, List.length_cons] at *
        simp only [MAX_BATCH_SIZE]
        omega
      show (((t :: ts).take MAX_BATCH_SIZE).map truncateText ::
          sentBatchesAux fuel ((t :: ts).drop MAX_BATCH_SIZE)).flatten = _
      rw [List.flatten_cons, ih _ hlen, ← List.map_append, List.take_append_drop]

/-- Claim C5: with a provider returning one embedding per input (the
order-preserving contract of the embedding API), `generateEmbeddings` on
inputs `[t0..tn]` returns exactly `n+1` records whose `index` fields are
`0..n` in order and whose `text` fields are the original un-truncated
inputs, while every text handed to the provider is the truncation of the
corresponding input to the 8191-token × 4-characters budget. -/
theorem generateEmbeddings_spec (E : Type) (provider : List JsStr → List E)
    (texts : List JsStr) (hp : ∀ b, (provider b).length = b.length) :
    (generateEmbeddings E provider texts).length = texts.length ∧
    (generateEmbeddings E provider texts).map (fun r => r.index) =
      List.range texts.length ∧
    (generateEmbeddings E provider texts).map (fun r => r.text) = texts ∧
    (sentBatches texts).flatten = texts.map truncateText ∧
    ∀ t ∈ (sentBatches texts).flatten, t.length ≤ MAX_TOKENS_PER_REQUEST * 4 := by
  have hmain := genEmbLoop_spec E provider hp (texts.length + 1) texts 0 (by omega)
  have hflat := sentBatchesAux_flatten (texts.length + 1) texts (by omega)
  refine ⟨?_, ?_, hmain.2, hflat, ?_⟩
  · have := congrArg List.length hmain.2
    simpa using this
  · rw [List.range_eq_range']
    exact hmain.1
  · intro t ht
    simp only [sentBatches] at ht
    rw [hflat] at ht
    rcases List.mem_map.mp ht with ⟨u, _, hu⟩
    rw [← hu]
    exact truncateText_length_le u

/-- Witness for C5 at a two-element input and a concrete length-preserving
provider. -/
theorem generateEmbeddings_spec_witness :
    (generateEmbeddings Nat (fun b => b.map List.length)
        ["a".toList, "b".toList]).map (fun r => r.index) = List.range 2 ∧
    (generateEmbeddings Nat (fun b => b.map List.length)
        ["a".toList, "b".toList]).map (fun r => r.text) = ["a".toList, "b".toList] := by
  have h := generateEmbeddings_spec Nat (fun b => b.map List.length)
    ["a".toList, "b".toList] (fun b => by simp)
  exact ⟨h.2.1, h.2.2.1⟩

/-! # C6 — similarity search -/

/-- Membership in an insertion. -/
theorem mem_insertByKey (α K : Type) [LinearOrder K] (key : α → K) (x : α) :
    ∀ (l : List α) (y : α), y ∈ insertByKey α K key x l ↔ y = x ∨ y ∈ l := by
  intro l
  induction l with
  | nil => intro y; simp [insertByKey]
  | cons z zs ih =>
    intro y
    unfold insertByKey
    by_cases hc : key x ≤ key z
    · rw [if_pos hc]
      simp [List.mem_cons]
    · rw [if_neg hc]
      simp only [List.mem_cons, ih y]
      tauto

/-- Membership in the sorted list. -/
theorem mem_sortByKey (α K : Type) [LinearOrder K] (key : α → K) :
    ∀ (l : List α) (y : α), y ∈ sortByKey α K key l ↔ y ∈ l := by
  intro l
  induction l with
  | nil => intro y; simp [sortByKey]
  | cons z zs ih =>
    intro y
    unfold sortByKey
    rw [mem_insertByKey α K key z (sortByKey α K key zs) y]
    simp only [List.mem_cons, ih y]

/-- Insertion preserves sortedness by ascending key. -/
theorem insertByKey_sorted (α K : Type) [LinearOrder K] (key : α → K) (x : α) :
    ∀ (l : List α), List.Pairwise (fun a b => key a ≤ key b) l →
      List.Pairwise (fun a b => key a ≤ key b) (insertByKey α K key x l) := by
  intro l
  induction l with
  | nil => intro _; simp [insertByKey]
  | cons z zs ih =>
    intro hp
    rcases List.pairwise_cons.mp hp with ⟨hz, hzs⟩
    unfold insertByKey
    by_cases hc : key x ≤ key z
    · rw [if_pos hc]
      refine List.pairwise_cons.mpr ⟨?_, hp⟩
      intro y hy
      rcases List.mem_cons.mp hy with hy | hy
      · rw [hy]; exact hc
      · exact le_trans hc (hz y hy)
    · rw [if_neg hc]
      refine List.pairwise_cons.mpr ⟨?_, ih hzs⟩
      intro y hy
      rcases (mem_insertByKey α K key x zs y).mp hy with hy | hy
      · rw [hy]; exact le_of_not_le hc
      · exact hz y hy

/-- The insertion sort sorts by ascending key. -/
theorem sortByKey_sorted (α K : Type) [LinearOrder K] (key : α → K) :
    ∀ (l : List α), List.Pairwise (fun a b => key a ≤ key b) (sortByKey α K key l) := by
  intro l
  induction l with
  | nil => simp [sortByKey]
  | cons z zs ih => exact insertByKey_sorted α K key z (sortByKey α K key zs) ih

/-- Claim C6: every row returned by `match_content_chunks` comes from the
table, has a non-null embedding, carries similarity `1 - distance` to the
query, exceeds the threshold strictly, and satisfies the optional
textbook/chapter equality filters; the result is ordered by descending
similarity (ascending distance) and holds at most `match_count` rows; and
`searchContent` returns exactly these rows (with the defaults
`limit = 5`, `threshold = 0.7`), wrapped as `SearchResult`s. -/
theorem matchContentChunks_spec (E K : Type) [LinearOrderedRing K] (dist : E → E → K)
    (rows : List (ContentChunkRow E)) (q : E) (thr : K) (cnt : Nat)
    (ftb fch : Option Nat) :
    (∀ x ∈ matchContentChunks E K dist rows q thr cnt ftb fch,
      x.1 ∈ rows ∧
      (∃ e, x.1.embedding = some e ∧ x.2 = 1 - dist e q) ∧
      thr < x.2 ∧
      (∀ tb, ftb = some tb → x.1.textbook_id = tb) ∧
      (∀ ch, fch = some ch → x.1.chapter_id = ch)) ∧
    (matchContentChunks E K dist rows q thr cnt ftb fch).length ≤ cnt ∧
    List.Pairwise (fun a b => b.2 ≤ a.2)
      (matchContentChunks E K dist rows q thr cnt ftb fch) ∧
    (∀ (distQ : E → E → ℚ) (rowsQ : List (ContentChunkRow E)) (qQ : E)
        (options : SearchOptions),
      searchContent E distQ rowsQ qQ options =
        (matchContentChunks E ℚ distQ rowsQ qQ (options.threshold.getD (7 / 10))
          (options.limit.getD 5) options.textbookId options.chapterId).map
            (fun p => ⟨p.1, p.2⟩)) := by
  refine ⟨?_, ?_, ?_, fun _ _ _ _ => rfl⟩
  · intro x hx
    unfold matchContentChunks at hx
    rcases List.mem_map.mp hx with ⟨p, hp, hfx⟩
    have hsort := List.mem_of_mem_take hp
    have helig := (mem_sortByKey (ContentChunkRow E × K) K (fun y => y.2) _ p).mp hsort
    rcases List.mem_filterMap.mp helig with ⟨r, hr, heq⟩
    rcases hemb : r.embedding with _ | e
    · rw [hemb] at heq; simp at heq
    · rw [hemb] at heq
      simp only at heq
      split at heq
      · rename_i hcond
        injection heq with heq
        subst heq
        subst hfx
        simp only [Bool.and_eq_true, decide_eq_true_eq] at hcond
        refine ⟨hr, ⟨e, hemb, rfl⟩, hcond.2, ?_, ?_⟩
        · intro tb htb
          have := hcond.1.1
          rw [htb] at this
          simpa using this
        · intro ch hch
          have := hcond.1.2
          rw [hch] at this
          simpa using this
      · simp at heq
  · unfold matchContentChunks
    rw [List.length_map]
    exact List.length_take_le cnt (sortByKey (ContentChunkRow E × K) K (fun y => y.2) _)
  · unfold matchContentChunks
    rw [List.pairwise_map]
    exact ((sortByKey_sorted (ContentChunkRow E × K) K (fun y => y.2) _).sublist
      (List.take_sublist cnt _)).imp (fun h => by simpa using sub_le_sub_left h 1)

/-- Witness for C6 at a concrete table over integer-valued distances: the
surviving row exceeds the threshold and the result respects the cap. -/
theorem matchContentChunks_spec_witness :
    ((0 : ℤ) <
      ((⟨1, 10, 20, [], 0, some (5 : ℤ)⟩, (1 : ℤ)) : ContentChunkRow ℤ × ℤ).2) ∧
    (matchContentChunks ℤ ℤ (fun a b => |a - b|)
      [⟨1, 10, 20, [], 0, some (5 : ℤ)⟩, ⟨2, 10, 20, [], 1, none⟩,
       ⟨3, 10, 21, [], 2, some (3 : ℤ)⟩, ⟨4, 11, 20, [], 3, some (5 : ℤ)⟩]
      5 0 5 (some 10) none).length ≤ 5 := by
  have h := matchContentChunks_spec ℤ ℤ (fun a b => |a - b|)
    [⟨1, 10, 20, [], 0, some (5 : ℤ)⟩, ⟨2, 10, 20, [], 1, none⟩,
     ⟨3, 10, 21, [], 2, some (3 : ℤ)⟩, ⟨4, 11, 20, [], 3, some (5 : ℤ)⟩]
    5 0 5 (some 10) none
  refine ⟨(h.1 _ (by decide)).2.2.1, h.2.1⟩

/-! # C7 — Claude JSON extraction -/

/-- Claim C7 (counterexample): the response `[1,2]` contains a top-level
JSON array and is valid JSON, yet `askClaudeJson` raises
`No JSON found in Claude response` — the fallback regex only looks for a
brace-delimited object, so a bare top-level array is never extracted. -/
theorem askClaudeJson_array_counterexample :
    askClaudeJson jsonParse ("[1,2]".toList) =
      .error ("No JSON found in Claude response".toList) ∧
    extractJson ("[1,2]".toList) = none ∧
    (jsonParse ("[1,2]".toList)).isSome = true := by
  exact ⟨rfl, rfl, rfl⟩

/-- The lazy capture runs to the first closing fence: with no backtick in
`u`, scanning `u ++ "\n```"` captures `u ++ "\n"`. -/
theorem findFence_close (u : JsStr) (hu : ∀ x ∈ u, x ≠ btickC) :
    findFence (u ++ '\n' :: fenceLit) = some (u ++ ['\n']) := by
  induction u with
  | nil =>
    simp only [List.nil_append]
    decide
  | cons x u ih =>
    have hx : x ≠ btickC := hu x (List.mem_cons_self x u)
    have hu' : ∀ y ∈ u, y ≠ btickC := fun y hy => hu y (List.mem_cons_of_mem x hy)
    have hpre : fenceLit.isPrefixOf (x :: (u ++ '\n' :: fenceLit)) = false := by
      show (btickC :: btickC :: btickC :: []).isPrefixOf _ = false
      simp only [List.isPrefixOf, Bool.and_eq_false_iff, beq_eq_false_iff_ne, ne_eq]
      exact Or.inl (fun h => hx h.symm)
    rw [List.cons_append]
    unfold findFence
    rw [hpre]
    simp only [Bool.false_eq_true, if_false, ih hu', Option.map_some']
    rw [List.cons_append]

/-- Completing the fence after ```` ```json ````, a newline, and a body that
starts with a non-whitespace character and contains no backtick, captures
the body plus the final newline. -/
theorem fenceComplete_spec (c : Char) (s : JsStr) (hws : isJsWs c = false)
    (hnb : ∀ x ∈ c :: s, x ≠ btickC) :
    fenceComplete ('j' :: 's' :: 'o' :: 'n' :: '\n' :: ((c :: s) ++ '\n' :: fenceLit)) =
      some ((c :: s) ++ ['\n']) := by
  unfold fenceComplete
  have hjson : ("json".toList).isPrefixOf
      ('j' :: 's' :: 'o' :: 'n' :: '\n' :: ((c :: s) ++ '\n' :: fenceLit)) = true := by
    simp [List.isPrefixOf]
  rw [if_pos hjson]
  show findFence (List.dropWhile isJsWs ('\n' :: ((c :: s) ++ '\n' :: fenceLit))) = _
  rw [List.dropWhile_cons_of_pos (by rfl), List.cons_append,
    List.dropWhile_cons_of_neg (by rw [hws]; exact Bool.false_ne_true)]
  rw [← List.cons_append]
  exact findFence_close (c :: s) hnb

/-- Claim C7 (amended): `askClaudeJson` raises an error exactly when neither
extraction pattern matches or the extracted text fails to parse — the
extraction being: the body of the first closed code fence when one exists
(tolerating a `json` tag and leading whitespace), else the greedy span from
the first `{` to the last `}` of the response.  A fenced JSON body (no
backticks, starting with a non-whitespace character) is always extracted
together with its trailing newline; a bare top-level array outside a fence
is never extracted. -/
theorem askClaudeJson_extraction_spec :
    (∀ (parse : JsStr → Option Json) (r : JsStr),
      (∃ e, askClaudeJson parse r = .error e) ↔
        (extractJson r = none ∨ ∃ s, extractJson r = some s ∧ parse s = none)) ∧
    (∀ (c : Char) (s : JsStr), isJsWs c = false → (∀ x ∈ c :: s, x ≠ btickC) →
      extractJson (("```json\n".toList) ++ (c :: s) ++ ("\n```".toList)) =
        some ((c :: s) ++ ['\n'])) := by
  constructor
  · intro parse r
    unfold askClaudeJson
    cases hE : extractJson r with
    | none => simp
    | some s =>
      cases hP : parse s with
      | none => simp [hP]
      | some v => simp [hP]
  · intro c s hws hnb
    have hform : ("```json\n".toList) ++ (c :: s) ++ ("\n```".toList) =
        btickC :: btickC :: btickC :: 'j' :: 's' :: 'o' :: 'n' :: '\n' ::
          ((c :: s) ++ '\n' :: fenceLit) := rfl
    rw [hform]
    have hfc := fenceComplete_spec c s hws hnb
    unfold extractJson
    have hfm : fenceMatch (btickC :: btickC :: btickC :: 'j' :: 's' :: 'o' :: 'n' :: '\n' ::
        ((c :: s) ++ '\n' :: fenceLit)) = some ((c :: s) ++ ['\n']) := by
      unfold fenceMatch
      rw [if_pos (by rfl)]
      rw [show ((btickC :: btickC :: btickC :: 'j' :: 's' :: 'o' :: 'n' :: '\n' ::
        ((c :: s) ++ '\n' :: fenceLit)).drop 3) = 'j' :: 's' :: 'o' :: 'n' :: '\n' ::
        ((c :: s) ++ '\n' :: fenceLit) from rfl]
      rw [hfc]
    rw [hfm]

/-- Witness for C7's amended theorem: the fence-extraction clause applied to
the concrete body `[1,2]`. -/
theorem askClaudeJson_extraction_spec_witness :
    extractJson (("```json\n".toList) ++ ('[' :: ("1,2]".toList)) ++ ("\n```".toList)) =
      some (('[' :: ("1,2]".toList)) ++ ['\n']) := by
  exact askClaudeJson_extraction_spec.2 '[' ("1,2]".toList) (by decide) (by decide)

end StudyPdf
